import Mathlib

/-
Verification of the plain sidechain node core against its specification.

The Rust sources are shallowly embedded: machine integers (u32/u64) become
Nat with explicit wrapping (% 2^32, % 2^64) at every unchecked addition or
subtraction, LMDB databases become association lists keyed by the database
key type (LMDB keys are unique, so put replaces), fallible functions return
Except, and HashMap / HashSet values become association lists / membership
lists.  Content hashes (blake3-of-bincode: types/hashes.rs is absent from
the sources) and ed25519 signature verification are opaque in the code and
are passed as explicit function arguments.
-/

namespace Plain

/-- Modelled from the spec: types/hashes.rs is missing from the sources; a
sidechain Txid is a 32-byte blake3 content hash, treated as an opaque
value. -/
abbrev Txid := Nat

/-- Modelled from the spec: a merkle root is a 32-byte content hash, treated
as an opaque value. -/
abbrev MerkleRoot := Nat

/-- Modelled from the spec: a sidechain block hash is a 32-byte content
hash; 0 stands for the all-zeros hash. -/
abbrev BlockHash := Nat

/-- Modelled from the spec: types/address.rs is missing from the sources; an
Address is a 20-byte digest of an ed25519 public key, treated as an opaque
value. -/
abbrev Address := Nat

/-- Mainchain address (bitcoin Address with unchecked network); the code
only uses its derived total order and its script_pubkey, so it is opaque
here, ordered by Nat order. -/
abbrev MainAddress := Nat

/-- OutPoint from lib/src/types/types.rs. -/
inductive OutPoint where
  | Regular (txid : Txid) (vout : Nat)
  | Coinbase (merkle_root : MerkleRoot) (vout : Nat)
  | Deposit (txid : Nat) (vout : Nat)
deriving DecidableEq

/-- Content from lib/src/types/types.rs. -/
inductive Content where
  | value (v : Nat)
  | withdrawal (value : Nat) (main_fee : Nat) (main_address : MainAddress)
deriving DecidableEq

/-- Output from lib/src/types/types.rs. -/
structure Output where
  address : Address
  content : Content
deriving DecidableEq

/-- GetValue for Content. -/
def Content.get_value : Content → Nat
  | .value v => v
  | .withdrawal v _ _ => v

/-- GetValue for Output. -/
def Output.get_value (o : Output) : Nat := o.content.get_value

/-- Transaction from lib/src/types/types.rs. -/
structure Transaction where
  inputs : List OutPoint
  outputs : List Output
deriving DecidableEq

/-- FilledTransaction from lib/src/types/types.rs. -/
structure FilledTransaction where
  transaction : Transaction
  spent_utxos : List Output
deriving DecidableEq

/-- Authorization from lib/src/authorization.rs; the ed25519 public key and
signature are opaque. -/
structure Authorization where
  public_key : Nat
  signature : Nat
deriving DecidableEq

/-- AuthorizedTransaction from lib/src/types/types.rs. -/
structure AuthorizedTransaction where
  transaction : Transaction
  authorizations : List Authorization
deriving DecidableEq

/-- Body from lib/src/types/types.rs. -/
structure Body where
  coinbase : List Output
  transactions : List Transaction
  authorizations : List Authorization
deriving DecidableEq

/-- Error enum from src/state.rs (heed storage errors omitted: storage is
modelled as infallible association lists). -/
inductive Error where
  | AuthorizationError
  | NoUtxo (outpoint : OutPoint)
  | NotEnoughValueIn
  | NotEnoughFees
  | UtxoDoubleSpent
  | WrongPubKeyForAddress
  | BundleTooHeavy (weight : Nat) (max_weight : Nat)
deriving DecidableEq

deriving instance DecidableEq for Except

/-- Wrap-around bound of u64. -/
def U64 : Nat := 2 ^ 64

/-- Wrap-around bound of u32. -/
def U32 : Nat := 2 ^ 32

/-- Unchecked u64 addition (release-mode Rust wraps modulo 2^64). -/
def wadd (a b : Nat) : Nat := (a + b) % U64

/-- Association-list database lookup (LMDB get). -/
def assocGet {K V : Type} [DecidableEq K] (db : List (K × V)) (k : K) : Option V :=
  match db with
  | [] => none
  | kv :: t => if kv.1 = k then some kv.2 else assocGet t k

/-- Association-list database insert (LMDB put: keys are unique, an existing
key is overwritten). -/
def assocPut {K V : Type} [DecidableEq K] (db : List (K × V)) (k : K) (v : V) :
    List (K × V) :=
  match db with
  | [] => [(k, v)]
  | kv :: t => if kv.1 = k then (k, v) :: t else kv :: assocPut t k v

/-- Association-list database delete (LMDB delete). -/
def assocDelete {K V : Type} [DecidableEq K] (db : List (K × V)) (k : K) :
    List (K × V) :=
  match db with
  | [] => []
  | kv :: t => if kv.1 = k then t else kv :: assocDelete t k

/-- The utxos database of State: OutPoint keyed outputs, given in the
iteration order of the database. -/
abbrev UtxoDb := List (OutPoint × Output)

/-- Loop of State::fill_transaction over the inputs: look each input up in
utxos, failing NoUtxo on a miss. -/
def lookupSpent (utxos : UtxoDb) : List OutPoint → Except Error (List Output)
  | [] => .ok []
  | i :: rest =>
    match assocGet utxos i with
    | none => .error (.NoUtxo i)
    | some u => (lookupSpent utxos rest).map (fun l => u :: l)

/-- State::fill_transaction from src/state.rs. -/
def fill_transaction (utxos : UtxoDb) (t : Transaction) :
    Except Error FilledTransaction :=
  (lookupSpent utxos t.inputs).map (fun l => { transaction := t, spent_utxos := l })

/-- The value_in accumulation loop of State::validate_filled_transaction
(unchecked u64 additions). -/
def valueIn (t : FilledTransaction) : Nat :=
  t.spent_utxos.foldl (fun acc u => wadd acc u.get_value) 0

/-- The value_out accumulation loop of State::validate_filled_transaction
(unchecked u64 additions). -/
def valueOut (t : FilledTransaction) : Nat :=
  t.transaction.outputs.foldl (fun acc o => wadd acc o.get_value) 0

/-- State::validate_filled_transaction from src/state.rs. -/
def validate_filled_transaction (t : FilledTransaction) : Except Error Nat :=
  if valueOut t > valueIn t then .error .NotEnoughValueIn
  else .ok (valueIn t - valueOut t)

/-- The coinbase_value accumulation loop of State::validate_body. -/
def coinbaseValue (body : Body) : Nat :=
  body.coinbase.foldl (fun acc o => wadd acc o.get_value) 0

/-- Filling of every body transaction in State::validate_body. -/
def fillAll (utxos : UtxoDb) : List Transaction → Except Error (List FilledTransaction)
  | [] => .ok []
  | t :: rest => do
    let ft ← fill_transaction utxos t
    let fts ← fillAll utxos rest
    .ok (ft :: fts)

/-- Inner input loop of State::validate_body: the spent_utxos HashSet is a
membership list; a repeated outpoint fails UtxoDoubleSpent, otherwise the
outpoint is inserted. -/
def checkTxInputs (spent : List OutPoint) : List OutPoint → Except Error (List OutPoint)
  | [] => .ok spent
  | i :: rest =>
    if i ∈ spent then .error .UtxoDoubleSpent
    else checkTxInputs (i :: spent) rest

/-- Outer loop of State::validate_body over filled transactions: duplicate
check on the inputs, then per-transaction value validation, accumulating
total_fees with unchecked u64 addition. -/
def feesLoop (spent : List OutPoint) (total : Nat) :
    List FilledTransaction → Except Error Nat
  | [] => .ok total
  | ft :: rest => do
    let spent2 ← checkTxInputs spent ft.transaction.inputs
    let fee ← validate_filled_transaction ft
    feesLoop spent2 (wadd total fee) rest

/-- Address check loop of State::validate_body: authorizations are zipped
with the concatenated spent utxos, stopping at the shorter list. -/
def checkAddresses (getAddr : Nat → Address) :
    List Authorization → List Output → Except Error Unit
  | a :: arest, s :: srest =>
    if getAddr a.public_key ≠ s.address then .error .WrongPubKeyForAddress
    else checkAddresses getAddr arest srest
  | _, _ => .ok ()

/-- Messages of verify_authorizations (lib/src/authorization.rs): each
transaction, repeated once per input; the bincode serialisation of the
transaction is represented by the transaction itself. -/
def bodyMessages (body : Body) : List Transaction :=
  (body.transactions.map (fun t => List.replicate t.inputs.length t)).flatten

/-- The domain on which verify_authorizations (and hence validate_body)
returns at all: the body has no more authorizations than messages (one
message per transaction input).  On the complement, the per-thread
package slicing of lib/src/authorization.rs indexes out of range or its
final assertion fails — the source panics and never returns. -/
def authorizationsWithinInputs (body : Body) : Bool :=
  body.authorizations.length ≤ (bodyMessages body).length

/-- verify_authorizations from lib/src/authorization.rs: authorizations are
zipped with the messages and the pairs are partitioned into per-thread
packages that are batch-verified, so every zipped pair is checked; the
ed25519 batch verifier is the opaque argument.  The source panics — it
never returns — on bodies with more authorizations than messages (package
slicing out of range, or the final assertion fails), so this Bool value
models the program exactly on bodies satisfying
authorizationsWithinInputs; every acceptance statement about
validate_body therefore carries that bound as a hypothesis. -/
def verify_authorizations (verify : Authorization → Transaction → Bool)
    (body : Body) : Bool :=
  (body.authorizations.zip (bodyMessages body)).all (fun p => verify p.1 p.2)

/-- State::validate_body from src/state.rs. -/
def validate_body (getAddr : Nat → Address)
    (verify : Authorization → Transaction → Bool)
    (utxos : UtxoDb) (body : Body) : Except Error Nat := do
  let coinbase_value := coinbaseValue body
  let filled ← fillAll utxos body.transactions
  let total_fees ← feesLoop [] 0 filled
  if coinbase_value > total_fees then .error .NotEnoughFees
  else do
    let _ ← checkAddresses getAddr body.authorizations
      ((filled.map (fun ft => ft.spent_utxos)).flatten)
    if verify_authorizations verify body then .ok total_fees
    else .error .AuthorizationError

/-- Mathematical (non-wrapping) sum of the output values of a filled
transaction. -/
def trueValueOut (t : FilledTransaction) : Nat :=
  (t.transaction.outputs.map Output.get_value).sum

/-- Mathematical (non-wrapping) sum of the spent-utxo values of a filled
transaction. -/
def trueValueIn (t : FilledTransaction) : Nat :=
  (t.spent_utxos.map Output.get_value).sum

/-- Mainchain transaction input, reduced to its script_sig (the previous
outpoint and sequence of the default TxIn are constants that only
contribute fixed bytes to the serialised size). -/
structure BTxIn where
  script_sig : List Nat
deriving DecidableEq

/-- Mainchain transaction output (bitcoin TxOut): a satoshi value and a
script given as its bytes. -/
structure BTxOut where
  value : Nat
  script_pubkey : List Nat
deriving DecidableEq

/-- Mainchain transaction (bitcoin Transaction, no witness data). -/
structure BTransaction where
  version : Nat
  lock_time : Nat
  input : List BTxIn
  output : List BTxOut
deriving DecidableEq

/-- Length of the bitcoin variable-width integer encoding. -/
def varintLen (n : Nat) : Nat :=
  if n < 253 then 1 else if n < 2 ^ 16 then 3 else if n < 2 ^ 32 then 5 else 9

/-- Serialised size of a transaction input: 36-byte previous outpoint,
length-prefixed script_sig, 4-byte sequence. -/
def txinSize (txin : BTxIn) : Nat :=
  36 + varintLen txin.script_sig.length + txin.script_sig.length + 4

/-- Serialised size of a transaction output: 8-byte value and
length-prefixed script. -/
def txoutSize (o : BTxOut) : Nat :=
  8 + varintLen o.script_pubkey.length + o.script_pubkey.length

/-- Serialised (base) size of a mainchain transaction: 4-byte version,
counted inputs and outputs, 4-byte lock time. -/
def btxBaseSize (tx : BTransaction) : Nat :=
  4 + varintLen tx.input.length + (tx.input.map txinSize).sum
    + varintLen tx.output.length + (tx.output.map txoutSize).sum + 4

/-- Transaction weight: with no witness data the weight is four times the
base size (this reproduces the BUNDLE_0_WEIGHT = 504 constant of the
code for the bundle skeleton). -/
def btxWeight (tx : BTransaction) : Nat := 4 * btxBaseSize tx

/-- Opcode byte OP_RETURN. -/
def opRet : Nat := 106

/-- Opcode byte OP_FALSE (= OP_0). -/
def opFalse : Nat := 0

/-- Script-builder push_slice for at most 75 bytes: a length byte followed
by the data. -/
def pushSlice (data : List Nat) : List Nat := data.length :: data

/-- Little-endian u64 byte encoding (fee.to_le_bytes()). -/
def toLEBytes8 (n : Nat) : List Nat :=
  (List.range 8).map (fun i => n / 256 ^ i % 256)

/-- Mainchain standard transaction weight limit
(bitcoin::policy::MAX_STANDARD_TX_WEIGHT). -/
def MAX_STANDARD_TX_WEIGHT : Nat := 400000

/-- Weight of a bundle with 0 outputs, from src/state.rs. -/
def BUNDLE_0_WEIGHT : Nat := 504

/-- Weight of a single bundle output, from src/state.rs. -/
def OUTPUT_WEIGHT : Nat := 128

/-- MAX_BUNDLE_OUTPUTS from src/state.rs. -/
def MAX_BUNDLE_OUTPUTS : Nat :=
  (MAX_STANDARD_TX_WEIGHT - BUNDLE_0_WEIGHT) / OUTPUT_WEIGHT

/-- AggregatedWithdrawal from lib/src/types/mod.rs; the spent_utxos HashMap
is an association list. -/
structure AggregatedWithdrawal where
  spent_utxos : List (OutPoint × Output)
  main_address : MainAddress
  value : Nat
  main_fee : Nat
deriving DecidableEq

/-- Ord::cmp for AggregatedWithdrawal from lib/src/types/mod.rs: Equal on
equal values, Greater when any of main_fee, value, main_address is
strictly greater, Less otherwise. -/
def AggregatedWithdrawal.cmp (a b : AggregatedWithdrawal) : Ordering :=
  if a = b then .eq
  else if a.main_fee > b.main_fee ∨ a.value > b.value ∨ a.main_address > b.main_address
    then .gt
  else .lt

/-- Aggregation loop of State::collect_withdrawal_bundle: scan the utxos in
database iteration order, grouping withdrawal outputs by main_address with
wrapping value sums, maximal main_fee, and collected spent utxos. -/
def aggregateLoop :
    UtxoDb → List (MainAddress × AggregatedWithdrawal) →
    List (MainAddress × AggregatedWithdrawal)
  | [], acc => acc
  | (op, o) :: rest, acc =>
    match o.content with
    | .value _ => aggregateLoop rest acc
    | .withdrawal v fee addr =>
      let cur := (assocGet acc addr).getD
        { spent_utxos := [], main_address := addr, value := 0, main_fee := 0 }
      let upd : AggregatedWithdrawal :=
        { spent_utxos := assocPut cur.spent_utxos op o
          main_address := cur.main_address
          value := wadd cur.value v
          main_fee := if fee > cur.main_fee then fee else cur.main_fee }
      aggregateLoop rest (assocPut acc addr upd)

/-- The address_to_aggregated_withdrawal map of
State::collect_withdrawal_bundle. -/
def aggregate (utxos : UtxoDb) : List (MainAddress × AggregatedWithdrawal) :=
  aggregateLoop utxos []

/-- HashMap::extend on the spent_utxos map: insert every pair, replacing
existing keys. -/
def mapExtend (m l : List (OutPoint × Output)) : List (OutPoint × Output) :=
  l.foldl (fun acc kv => assocPut acc kv.1 kv.2) m

/-- Accumulator of the greedy selection loop of
State::collect_withdrawal_bundle. -/
structure Selection where
  fee : Nat
  spent_utxos : List (OutPoint × Output)
  bundle_outputs : List BTxOut
deriving DecidableEq

/-- One iteration of the greedy selection loop of
State::collect_withdrawal_bundle: push the aggregate output with the
script of its main address, extend the spent utxos, and add its main_fee
to the fee (unchecked u64 addition). -/
def selStep (spk : MainAddress → List Nat) (sel : Selection)
    (a : AggregatedWithdrawal) : Selection :=
  { fee := wadd sel.fee a.main_fee
    spent_utxos := mapExtend sel.spent_utxos a.spent_utxos
    bundle_outputs := sel.bundle_outputs
      ++ [{ value := a.value, script_pubkey := spk a.main_address }] }

/-- Greedy selection loop of State::collect_withdrawal_bundle: break once
more than MAX_BUNDLE_OUTPUTS outputs have been pushed; otherwise run one
iteration and continue. -/
def selectLoop (spk : MainAddress → List Nat) (sel : Selection) :
    List AggregatedWithdrawal → Selection
  | [] => sel
  | a :: rest =>
    if sel.bundle_outputs.length > MAX_BUNDLE_OUTPUTS then sel
    else selectLoop spk (selStep spk sel a) rest

/-- WithdrawalBundle from lib/src/types/mod.rs. -/
structure WithdrawalBundle where
  spent_utxos : List (OutPoint × Output)
  transaction : BTransaction
deriving DecidableEq

/-- WithdrawalBundleStatus from lib/src/types/mod.rs. -/
inductive WithdrawalBundleStatus where
  | Failed
  | Confirmed
deriving DecidableEq

/-- The inputs committed to by the third OP_RETURN output of the bundle:
the keys of the selected spent_utxos map in map iteration order, followed
by OutPoint::Regular with txid 0 and vout block_height. -/
def bundleCommitmentInputs (iterKeys : List (OutPoint × Output) → List OutPoint)
    (spent : List (OutPoint × Output)) (block_height : Nat) : List OutPoint :=
  iterKeys spent ++ [OutPoint.Regular 0 block_height]

/-- State::collect_withdrawal_bundle from src/state.rs.  hashFn is the
opaque 32-byte hash of the bincode-serialised commitment inputs, spk maps
a mainchain address to its script_pubkey bytes.  iterAgg models the
iteration order of HashMap::into_values composed with the subsequent
sort_by_key(Reverse): since AggregatedWithdrawal::cmp is not a total order
(see the C2 theorems), the documented contract of the sort is only that
its result is some permutation of its input, so a run of the code is
modelled by a reorder function.  iterKeys likewise models the HashMap
iteration order of spent_utxos.keys(). -/
def collect_withdrawal_bundle
    (hashFn : List OutPoint → List Nat) (spk : MainAddress → List Nat)
    (iterAgg : List AggregatedWithdrawal → List AggregatedWithdrawal)
    (iterKeys : List (OutPoint × Output) → List OutPoint)
    (utxos : UtxoDb) (block_height : Nat) :
    Except Error (Option WithdrawalBundle) :=
  let aggMap := aggregate utxos
  if aggMap.isEmpty then .ok none
  else
    let aggregated_withdrawals := iterAgg (aggMap.map Prod.snd)
    let sel := selectLoop spk
      { fee := 0, spent_utxos := [], bundle_outputs := [] } aggregated_withdrawals
    let txin : BTxIn := { script_sig := [opFalse] }
    let return_dest_txout : BTxOut :=
      { value := 0, script_pubkey := opRet :: pushSlice [68] }
    let mainchain_fee_txout : BTxOut :=
      { value := 0, script_pubkey := opRet :: pushSlice (toLEBytes8 sel.fee) }
    let commitment := hashFn (bundleCommitmentInputs iterKeys sel.spent_utxos block_height)
    let inputs_commitment_txout : BTxOut :=
      { value := 0, script_pubkey := opRet :: pushSlice commitment }
    let transaction : BTransaction :=
      { version := 2, lock_time := 0, input := [txin]
        output := [return_dest_txout, mainchain_fee_txout, inputs_commitment_txout]
          ++ sel.bundle_outputs }
    if btxWeight transaction > MAX_STANDARD_TX_WEIGHT then
      .error (.BundleTooHeavy (btxWeight transaction) MAX_STANDARD_TX_WEIGHT)
    else .ok (some { spent_utxos := sel.spent_utxos, transaction := transaction })

/-- An admissible model of HashMap::into_values followed by the sort: a
function that permutes its input list. -/
def PermIter (f : List AggregatedWithdrawal → List AggregatedWithdrawal) : Prop :=
  ∀ l, List.Perm (f l) l

/-- An admissible model of HashMap keys iteration: a function producing the
keys of the map in some order. -/
def KeysIter (f : List (OutPoint × Output) → List OutPoint) : Prop :=
  ∀ m, List.Perm (f m) (m.map Prod.fst)

/-- Modelled from the spec: the bip300301 crate is an external dependency;
a mainchain deposit carries a destination string, represented by the
result of parsing it as a sidechain Address (none when unparseable), and
a value. -/
structure Deposit where
  address : Option Address
  value : Nat
deriving DecidableEq

/-- Modelled from the spec: bip300301::TwoWayPegData; maps are association
lists in iteration order, deposit keys are mainchain outpoints
(txid, vout), bundle-status keys are mainchain txids. -/
structure TwoWayPegData where
  deposits : List ((Nat × Nat) × Deposit)
  deposit_block_hash : Option Nat
  bundle_statuses : List (Nat × WithdrawalBundleStatus)
deriving DecidableEq

/-- The four databases of State from src/state.rs; the three single-key
databases keep their u32 key type so that the key-0 invariant is a
statement, not a modelling artifact. -/
structure State where
  utxos : UtxoDb
  pending_withdrawal_bundle : List (Nat × WithdrawalBundle)
  last_withdrawal_bundle_failure_height : List (Nat × Nat)
  last_deposit_block : List (Nat × Nat)
deriving DecidableEq

/-- State::WITHDRAWAL_BUNDLE_FAILURE_GAP. -/
def WITHDRAWAL_BUNDLE_FAILURE_GAP : Nat := 4

/-- Unchecked u32 subtraction (release-mode Rust wraps modulo 2^32). -/
def wsub32 (a b : Nat) : Nat := (a % U32 + (U32 - b % U32)) % U32

/-- Deposit loop of State::connect_two_way_peg_data: insert a Value UTXO at
OutPoint::Deposit for every deposit whose address parses; unparseable
addresses are skipped. -/
def applyDeposits (utxos : UtxoDb) : List ((Nat × Nat) × Deposit) → UtxoDb
  | [] => utxos
  | (mop, dep) :: rest =>
    match dep.address with
    | none => applyDeposits utxos rest
    | some a =>
      applyDeposits
        (assocPut utxos (OutPoint.Deposit mop.1 mop.2)
          { address := a, content := .value dep.value }) rest

/-- Bundle-emergence step of State::connect_two_way_peg_data: when the
failure gap has passed and no bundle is pending, collect a bundle; if one
is produced, delete its spent UTXOs and store it at key 0. -/
def bundleEmergence
    (hashFn : List OutPoint → List Nat) (spk : MainAddress → List Nat)
    (iterAgg : List AggregatedWithdrawal → List AggregatedWithdrawal)
    (iterKeys : List (OutPoint × Output) → List OutPoint)
    (block_height : Nat) (s : State) : Except Error State :=
  let last_failure := (assocGet s.last_withdrawal_bundle_failure_height 0).getD 0
  if wsub32 ((block_height + 1) % U32) last_failure > WITHDRAWAL_BUNDLE_FAILURE_GAP
      ∧ assocGet s.pending_withdrawal_bundle 0 = none then
    match collect_withdrawal_bundle hashFn spk iterAgg iterKeys s.utxos
        ((block_height + 1) % U32) with
    | .error e => .error e
    | .ok none => .ok s
    | .ok (some bundle) =>
      .ok { s with
        utxos := bundle.spent_utxos.foldl (fun u kv => assocDelete u kv.1) s.utxos
        pending_withdrawal_bundle := assocPut s.pending_withdrawal_bundle 0 bundle }
  else .ok s

/-- One iteration of the bundle-status loop of
State::connect_two_way_peg_data: when a pending bundle exists and its
mainchain txid matches, Failed records the failure height, deletes the
bundle and restores its spent UTXOs, while Confirmed only deletes the
bundle; otherwise nothing happens. -/
def applyBundleStatus (btxid : BTransaction → Nat) (block_height : Nat)
    (s : State) (p : Nat × WithdrawalBundleStatus) : State :=
  match assocGet s.pending_withdrawal_bundle 0 with
  | none => s
  | some bundle =>
    if btxid bundle.transaction ≠ p.1 then s
    else
      match p.2 with
      | .Failed =>
        { s with
          last_withdrawal_bundle_failure_height :=
            assocPut s.last_withdrawal_bundle_failure_height 0 ((block_height + 1) % U32)
          pending_withdrawal_bundle := assocDelete s.pending_withdrawal_bundle 0
          utxos := mapExtend s.utxos bundle.spent_utxos }
      | .Confirmed =>
        { s with pending_withdrawal_bundle := assocDelete s.pending_withdrawal_bundle 0 }

/-- State::connect_two_way_peg_data from src/state.rs. -/
def connect_two_way_peg_data
    (hashFn : List OutPoint → List Nat) (spk : MainAddress → List Nat)
    (iterAgg : List AggregatedWithdrawal → List AggregatedWithdrawal)
    (iterKeys : List (OutPoint × Output) → List OutPoint)
    (btxid : BTransaction → Nat)
    (data : TwoWayPegData) (block_height : Nat) (s : State) : Except Error State :=
  let s1 :=
    match data.deposit_block_hash with
    | some h => { s with last_deposit_block := assocPut s.last_deposit_block 0 h }
    | none => s
  let s2 := { s1 with utxos := applyDeposits s1.utxos data.deposits }
  match bundleEmergence hashFn spk iterAgg iterKeys block_height s2 with
  | .error e => .error e
  | .ok s3 =>
    .ok (data.bundle_statuses.foldl (applyBundleStatus btxid block_height) s3)

/-- State::connect_body from src/state.rs: insert each coinbase output at
OutPoint::Coinbase, then for each transaction delete its inputs and insert
its outputs at OutPoint::Regular.  merkleFn is the opaque content hash of
(coinbase, transactions); stxid the opaque transaction content hash. -/
def connect_body (merkleFn : Body → MerkleRoot) (stxid : Transaction → Txid)
    (body : Body) (s : State) : State :=
  let merkle_root := merkleFn body
  let u1 := body.coinbase.enum.foldl
    (fun u p => assocPut u (OutPoint.Coinbase merkle_root p.1) p.2) s.utxos
  let u2 := body.transactions.foldl
    (fun u t =>
      let afterDel := t.inputs.foldl (fun v i => assocDelete v i) u
      t.outputs.enum.foldl
        (fun v p => assocPut v (OutPoint.Regular (stxid t) p.1) p.2) afterDel)
    u1
  { s with utxos := u2 }

/-- A State operation: connect_body, or connect_two_way_peg_data at an
arbitrary height with arbitrary peg data and arbitrary HashMap iteration
orders for that run. -/
inductive StateOp where
  | connectBody (body : Body)
  | connectPeg (data : TwoWayPegData) (block_height : Nat)
      (iterAgg : List AggregatedWithdrawal → List AggregatedWithdrawal)
      (iterKeys : List (OutPoint × Output) → List OutPoint)

/-- Run of one State operation; the opaque hash and script functions are
fixed across the run. -/
def execOp (hashFn : List OutPoint → List Nat) (spk : MainAddress → List Nat)
    (btxid : BTransaction → Nat) (merkleFn : Body → MerkleRoot)
    (stxid : Transaction → Txid) (s : State) : StateOp → Except Error State
  | .connectBody body => .ok (connect_body merkleFn stxid body s)
  | .connectPeg data h iterAgg iterKeys =>
    connect_two_way_peg_data hashFn spk iterAgg iterKeys btxid data h s

/-- Run of a sequence of State operations from a given state; an operation
that fails aborts its write transaction and leaves the databases
unchanged. -/
def runOps (hashFn : List OutPoint → List Nat) (spk : MainAddress → List Nat)
    (btxid : BTransaction → Nat) (merkleFn : Body → MerkleRoot)
    (stxid : Transaction → Txid) (s : State) (ops : List StateOp) : State :=
  ops.foldl
    (fun st op =>
      match execOp hashFn spk btxid merkleFn stxid st op with
      | .ok st2 => st2
      | .error _ => st) s

/-- The empty State: all four databases empty. -/
def initState : State :=
  { utxos := [], pending_withdrawal_bundle := []
    last_withdrawal_bundle_failure_height := [], last_deposit_block := [] }

/-- Header from lib/src/types/mod.rs. -/
structure Header where
  merkle_root : MerkleRoot
  prev_side_hash : BlockHash
  prev_main_hash : Nat
deriving DecidableEq

/-- The three databases of Archive from lib/src/archive.rs; height keys are
big-endian u32, whose byte order equals numeric order, so they are plain
naturals here. -/
structure Archive where
  headers : List (Nat × Header)
  bodies : List (Nat × Body)
  hash_to_height : List (Nat × Nat)
deriving DecidableEq

/-- Error enum from lib/src/archive.rs (heed errors omitted). -/
inductive ArchiveError where
  | InvalidPrevSideHash
  | InvalidMerkleRoot
  | NoHeader (h : BlockHash)
deriving DecidableEq

/-- LMDB last entry of a database: the entry with the greatest key. -/
def dbLast {V : Type} : List (Nat × V) → Option (Nat × V)
  | [] => none
  | kv :: t =>
    match dbLast t with
    | none => some kv
    | some m => some (if m.1 < kv.1 then kv else m)

/-- Archive::get_height from lib/src/archive.rs. -/
def get_height (a : Archive) : Nat :=
  match dbLast a.headers with
  | some p => p.1
  | none => 0

/-- Archive::get_best_hash from lib/src/archive.rs; headerHash is the
opaque content hash of a header, with 0 standing for the all-zeros hash
of the empty chain. -/
def get_best_hash (headerHash : Header → BlockHash) (a : Archive) : BlockHash :=
  match dbLast a.headers with
  | some p => headerHash p.2
  | none => 0

/-- Archive::append_header from lib/src/archive.rs. -/
def append_header (headerHash : Header → BlockHash) (a : Archive) (header : Header) :
    Except ArchiveError Archive :=
  let height := get_height a
  let best_hash := get_best_hash headerHash a
  if header.prev_side_hash ≠ best_hash then .error .InvalidPrevSideHash
  else .ok { a with
    headers := assocPut a.headers ((height + 1) % U32) header
    hash_to_height := assocPut a.hash_to_height (headerHash header) ((height + 1) % U32) }

/-- The empty Archive. -/
def emptyArchive : Archive := { headers := [], bodies := [], hash_to_height := [] }

/-- Successive appends of a list of headers. -/
def appendAll (headerHash : Header → BlockHash) :
    List Header → Archive → Except ArchiveError Archive
  | [], a => .ok a
  | h :: rest, a =>
    match append_header headerHash a h with
    | .error e => .error e
    | .ok a2 => appendAll headerHash rest a2

/-- The two databases of MemPool from src/mempool.rs; the spent_utxos
database maps outpoints to unit, so it is a membership list here. -/
structure MemPool where
  transactions : List (Txid × AuthorizedTransaction)
  spent_utxos : List OutPoint
deriving DecidableEq

/-- Error enum from src/mempool.rs (heed errors omitted). -/
inductive MemPoolError where
  | UtxoDoubleSpent
deriving DecidableEq

/-- Input loop of MemPool::put: fail UtxoDoubleSpent on an input already
present in spent_utxos, otherwise record it. -/
def putLoop (spent : List OutPoint) : List OutPoint → Except MemPoolError (List OutPoint)
  | [] => .ok spent
  | i :: rest =>
    if i ∈ spent then .error .UtxoDoubleSpent
    else putLoop (i :: spent) rest

/-- MemPool::put from src/mempool.rs; on error the caller aborts the write
transaction, so the error case carries no state. -/
def MemPool.put (stxid : Transaction → Txid) (m : MemPool)
    (t : AuthorizedTransaction) : Except MemPoolError MemPool :=
  match putLoop m.spent_utxos t.transaction.inputs with
  | .error e => .error e
  | .ok spent =>
    .ok { transactions := assocPut m.transactions (stxid t.transaction) t
          spent_utxos := spent }

/-- MemPool::delete from src/mempool.rs: removes only the transactions
entry; spent_utxos is untouched. -/
def MemPool.delete (m : MemPool) (txid : Txid) : MemPool :=
  { m with transactions := assocDelete m.transactions txid }

/-- C6 witness input: one spent utxo of value 7, one output of value 3. -/
def ftW6 : FilledTransaction :=
  { transaction :=
      { inputs := [OutPoint.Regular 1 0]
        outputs := [{ address := 1, content := .value 3 }] }
    spent_utxos := [{ address := 2, content := .value 7 }] }

/-- C6 counterexample input: the mathematical output sum 2 ^ 64 + 7 wraps
to 7, below the spent sum 10. -/
def ftC6 : FilledTransaction :=
  { transaction :=
      { inputs := [OutPoint.Regular 1 0]
        outputs := [ { address := 1, content := .value (2 ^ 63) },
                     { address := 1, content := .value (2 ^ 63 + 7) } ] }
    spent_utxos := [{ address := 2, content := .value 10 }] }

/-- C10 input: true output sum exactly 2 ^ 64, wrapping to 0. -/
def ftC10 : FilledTransaction :=
  { transaction :=
      { inputs := [OutPoint.Regular 1 0, OutPoint.Regular 2 0]
        outputs := [ { address := 1, content := .value (2 ^ 63) },
                     { address := 1, content := .value (2 ^ 63) } ] }
    spent_utxos := [{ address := 2, content := .value 5 }] }

/-- C3 utxo set: a single deposit utxo of value 10. -/
def utxosC3 : UtxoDb :=
  [(OutPoint.Deposit 7 0, { address := 3, content := .value 10 })]

/-- C3 body: one transaction spending the deposit with an empty
authorizations list. -/
def bodyC3 : Body :=
  { coinbase := []
    transactions :=
      [{ inputs := [OutPoint.Deposit 7 0]
         outputs := [{ address := 4, content := .value 9 }] }]
    authorizations := [] }

/-- C2 counterexample aggregate with the smaller main_fee. -/
def aggA : AggregatedWithdrawal :=
  { spent_utxos := [], main_address := 1, value := 2, main_fee := 1 }

/-- C2 counterexample aggregate with the larger main_fee. -/
def aggB : AggregatedWithdrawal :=
  { spent_utxos := [], main_address := 2, value := 1, main_fee := 2 }

/-- C1 utxo set: two withdrawal UTXOs to two different mainchain
addresses whose aggregates are mutually Greater under
AggregatedWithdrawal cmp. -/
def utxosC1 : UtxoDb :=
  [ (OutPoint.Regular 10 0, { address := 1, content := .withdrawal 2 1 1 }),
    (OutPoint.Regular 20 0, { address := 2, content := .withdrawal 1 2 2 }) ]

/-- Aggregate of utxosC1 at mainchain address 1. -/
def aggC1a : AggregatedWithdrawal :=
  { spent_utxos := [(OutPoint.Regular 10 0, { address := 1, content := .withdrawal 2 1 1 })]
    main_address := 1, value := 2, main_fee := 1 }

/-- Aggregate of utxosC1 at mainchain address 2. -/
def aggC1b : AggregatedWithdrawal :=
  { spent_utxos := [(OutPoint.Regular 20 0, { address := 2, content := .withdrawal 1 2 2 })]
    main_address := 2, value := 1, main_fee := 2 }

/-- A constant 32-byte commitment hash, standing for blake3. -/
def hashFn0 : List OutPoint → List Nat := fun _ => List.replicate 32 0

/-- A constant 25-byte script, standing for a P2PKH script_pubkey. -/
def spk0 : MainAddress → List Nat := fun _ => List.replicate 25 0

/-- Identity iteration order for the aggregate map values. -/
def iterId : List AggregatedWithdrawal → List AggregatedWithdrawal := fun l => l

/-- Reversed iteration order for the aggregate map values. -/
def iterRev : List AggregatedWithdrawal → List AggregatedWithdrawal := fun l => l.reverse

/-- Key iteration in list order for the spent_utxos map. -/
def keysId : List (OutPoint × Output) → List OutPoint := fun m => m.map Prod.fst

/-- C9 witness transaction t spending one outpoint. -/
def txT : AuthorizedTransaction :=
  { transaction := { inputs := [OutPoint.Regular 5 0], outputs := [] }
    authorizations := [] }

/-- C9 witness transaction u spending the same outpoint. -/
def txU : AuthorizedTransaction :=
  { transaction :=
      { inputs := [OutPoint.Regular 5 0]
        outputs := [{ address := 1, content := .value 1 }] }
    authorizations := [] }

/-- C9 witness mempool after putting txT into the empty mempool. -/
def memPool1 : MemPool :=
  { transactions := [(0, txT)], spent_utxos := [OutPoint.Regular 5 0] }

/-- The pending_withdrawal_bundle database is empty or a single entry at
key 0. -/
def PendOk (l : List (Nat × WithdrawalBundle)) : Prop :=
  l = [] ∨ ∃ b, l = [(0, b)]

/-- C8 witness bundle: one spent utxo and an arbitrary transaction. -/
def bundleW8 : WithdrawalBundle :=
  { spent_utxos := [(OutPoint.Regular 10 0, { address := 1, content := .withdrawal 2 1 1 })]
    transaction := { version := 2, lock_time := 0, input := [], output := [] } }

/-- C8 witness state: empty utxos, bundleW8 pending at key 0. -/
def stateW8 : State :=
  { utxos := [], pending_withdrawal_bundle := [(0, bundleW8)]
    last_withdrawal_bundle_failure_height := [], last_deposit_block := [] }

/-- Headers database content after appending a list of headers: keys
n + 1, n + 2, …  in order. -/
def chainFrom (n : Nat) : List Header → List (Nat × Header)
  | [] => []
  | h :: t => (n + 1, h) :: chainFrom (n + 1) t

/-- C7 witness hash: the merkle root of the header. -/
def headerHashW : Header → BlockHash := fun hd => hd.merkle_root

/-- C7 witness first header, child of the empty chain. -/
def hW1 : Header := { merkle_root := 11, prev_side_hash := 0, prev_main_hash := 0 }

/-- C7 witness second header, child of hW1. -/
def hW2 : Header := { merkle_root := 22, prev_side_hash := 11, prev_main_hash := 0 }

/-- C7 witness archive: the result of appending hW1 then hW2. -/
def archW7 : Archive :=
  { headers := [(1, hW1), (2, hW2)], bodies := []
    hash_to_height := [(11, 1), (22, 2)] }

/-- Flattened inputs of a list of filled transactions, in
transaction-then-input order. -/
def allInputs (fts : List FilledTransaction) : List OutPoint :=
  (fts.map (fun ft => ft.transaction.inputs)).flatten

/-- Wrapped sum of the per-transaction fees. -/
def totalFees (fts : List FilledTransaction) : Nat :=
  (fts.map (fun ft => valueIn ft - valueOut ft)).foldl wadd 0

/-- C5 counterexample utxo set: one outpoint of value 0. -/
def utxosC5 : UtxoDb :=
  [(OutPoint.Regular 30 0, { address := 1, content := .value 0 })]

/-- C5 counterexample body: a duplicate input and a coinbase value
exceeding the fees. -/
def bodyC5 : Body :=
  { coinbase := [{ address := 9, content := .value 5 }]
    transactions :=
      [{ inputs := [OutPoint.Regular 30 0, OutPoint.Regular 30 0], outputs := [] }]
    authorizations := [] }

/-- The filled transactions of bodyC5. -/
def ftsC5 : List FilledTransaction :=
  [{ transaction :=
      { inputs := [OutPoint.Regular 30 0, OutPoint.Regular 30 0], outputs := [] }
     spent_utxos := [ { address := 1, content := .value 0 },
                      { address := 1, content := .value 0 } ] }]

/-- C5 witness utxo set. -/
def utxosW5 : UtxoDb :=
  [(OutPoint.Regular 1 0, { address := 1, content := .value 3 })]

/-- C5 witness body: one transaction with fee 2, coinbase 1, one
authorization. -/
def bodyW5 : Body :=
  { coinbase := [{ address := 9, content := .value 1 }]
    transactions :=
      [{ inputs := [OutPoint.Regular 1 0]
         outputs := [{ address := 2, content := .value 1 }] }]
    authorizations := [{ public_key := 5, signature := 0 }] }

/-- The filled transactions of bodyW5. -/
def ftsW5 : List FilledTransaction :=
  [{ transaction :=
      { inputs := [OutPoint.Regular 1 0]
        outputs := [{ address := 2, content := .value 1 }] }
     spent_utxos := [{ address := 1, content := .value 3 }] }]

/-- C5 witness address derivation: public key 5 owns address 1. -/
def getAddrW : Nat → Address := fun pk => if pk = 5 then 1 else 0

/- ===================== general lemmas ===================== -/

theorem U64_pos : 0 < U64 := Nat.two_pow_pos 64

theorem foldl_wadd_eq (l : List Nat) : ∀ a : Nat, a < U64 →
    l.foldl wadd a = (a + l.sum) % U64 := by
  induction l with
  | nil => intro a ha; simpa [wadd] using (Nat.mod_eq_of_lt ha).symm
  | cons v t ih =>
    intro a ha
    have h1 : List.foldl wadd a (v :: t) = List.foldl wadd (wadd a v) t := rfl
    rw [h1, ih (wadd a v) (Nat.mod_lt _ U64_pos)]
    show ((a + v) % U64 + t.sum) % U64 = (a + (v :: t).sum) % U64
    rw [Nat.mod_add_mod, List.sum_cons, ← Nat.add_assoc]

theorem valueIn_eq_mod (t : FilledTransaction) : valueIn t = trueValueIn t % U64 := by
  have h : valueIn t = (t.spent_utxos.map Output.get_value).foldl wadd 0 := by
    rw [List.foldl_map]; rfl
  rw [h, foldl_wadd_eq _ 0 U64_pos, Nat.zero_add]; rfl

theorem valueOut_eq_mod (t : FilledTransaction) : valueOut t = trueValueOut t % U64 := by
  have h : valueOut t = (t.transaction.outputs.map Output.get_value).foldl wadd 0 := by
    rw [List.foldl_map]; rfl
  rw [h, foldl_wadd_eq _ 0 U64_pos, Nat.zero_add]; rfl

theorem assocGet_put_self {K V : Type} [DecidableEq K] (db : List (K × V)) (k : K) (v : V) :
    assocGet (assocPut db k v) k = some v := by
  induction db with
  | nil => simp [assocPut, assocGet]
  | cons kv t ih =>
    by_cases h : kv.1 = k
    · simp [assocPut, h, assocGet]
    · simp [assocPut, h, assocGet, ih]

theorem assocGet_put_other {K V : Type} [DecidableEq K] (db : List (K × V))
    (k k2 : K) (v : V) (h : k2 ≠ k) :
    assocGet (assocPut db k v) k2 = assocGet db k2 := by
  induction db with
  | nil =>
    have hne : ¬ k = k2 := fun he => h he.symm
    simp [assocPut, assocGet, hne]
  | cons kv t ih =>
    by_cases hk : kv.1 = k
    · have hne : ¬ k = k2 := fun he => h he.symm
      simp [assocPut, hk, assocGet, hne]
    · simp only [assocPut, if_neg hk, assocGet]
      by_cases h2 : kv.1 = k2
      · simp [h2]
      · simp [h2, ih]

theorem assocGet_none_of_not_mem {K V : Type} [DecidableEq K] (db : List (K × V))
    (k : K) (h : k ∉ db.map Prod.fst) : assocGet db k = none := by
  induction db with
  | nil => rfl
  | cons kv t ih =>
    simp only [List.map_cons, List.mem_cons, not_or] at h
    have hne : ¬ kv.1 = k := fun he => h.1 he.symm
    simp only [assocGet, if_neg hne]
    exact ih h.2

theorem assocGet_delete_self_nodup {K V : Type} [DecidableEq K] (db : List (K × V))
    (k : K) (h : (db.map Prod.fst).Nodup) : assocGet (assocDelete db k) k = none := by
  induction db with
  | nil => rfl
  | cons kv t ih =>
    simp only [List.map_cons, List.nodup_cons] at h
    by_cases hk : kv.1 = k
    · simp only [assocDelete, if_pos hk]
      exact assocGet_none_of_not_mem t k (hk ▸ h.1)
    · simp only [assocDelete, if_neg hk, assocGet, if_neg hk]
      exact ih h.2

theorem assocGet_mapExtend_not_mem (l : List (OutPoint × Output)) :
    ∀ m (k : OutPoint), k ∉ l.map Prod.fst →
    assocGet (mapExtend m l) k = assocGet m k := by
  induction l with
  | nil => intro m k _; rfl
  | cons kv t ih =>
    intro m k hk
    simp only [List.map_cons, List.mem_cons, not_or] at hk
    have h1 : mapExtend m (kv :: t) = mapExtend (assocPut m kv.1 kv.2) t := rfl
    rw [h1, ih (assocPut m kv.1 kv.2) k hk.2]
    exact assocGet_put_other m kv.1 k kv.2 hk.1

theorem assocGet_mapExtend_mem (l : List (OutPoint × Output)) :
    ∀ m, (l.map Prod.fst).Nodup → ∀ kv ∈ l,
    assocGet (mapExtend m l) kv.1 = some kv.2 := by
  induction l with
  | nil => intro m _ kv hkv; cases hkv
  | cons hd t ih =>
    intro m hnd kv hkv
    simp only [List.map_cons, List.nodup_cons] at hnd
    have h1 : mapExtend m (hd :: t) = mapExtend (assocPut m hd.1 hd.2) t := rfl
    cases hkv with
    | head =>
      rw [h1, assocGet_mapExtend_not_mem t _ hd.1 hnd.1]
      exact assocGet_put_self m hd.1 hd.2
    | tail _ hkt => exact h1 ▸ ih (assocPut m hd.1 hd.2) hnd.2 kv hkt

/- ===================== C6 ===================== -/

/-- C6 (amended): validate_filled_transaction fails with NotEnoughValueIn
exactly when the wrapped (u64, modulo 2 ^ 64) sum of the output values
exceeds the wrapped sum of the spent-utxo values, and otherwise returns
their wrapped difference; whenever both mathematical sums are below
2 ^ 64 this is exactly the claimed comparison and fee on the mathematical
sums. -/
theorem validate_filled_transaction_spec (t : FilledTransaction) :
    (validate_filled_transaction t = .error .NotEnoughValueIn ↔ valueIn t < valueOut t)
    ∧ (validate_filled_transaction t = .ok (valueIn t - valueOut t) ↔ valueOut t ≤ valueIn t)
    ∧ (trueValueIn t < U64 → trueValueOut t < U64 →
        ((validate_filled_transaction t = .error .NotEnoughValueIn
            ↔ trueValueIn t < trueValueOut t)
          ∧ (trueValueOut t ≤ trueValueIn t →
              validate_filled_transaction t = .ok (trueValueIn t - trueValueOut t)))) := by
  have hin : valueIn t = trueValueIn t % U64 := valueIn_eq_mod t
  have hout : valueOut t = trueValueOut t % U64 := valueOut_eq_mod t
  refine ⟨?_, ?_, ?_⟩
  · unfold validate_filled_transaction
    by_cases h : valueOut t > valueIn t
    · rw [if_pos h]
      exact iff_of_true rfl h
    · rw [if_neg h]
      exact iff_of_false (by simp) (by omega)
  · unfold validate_filled_transaction
    by_cases h : valueOut t > valueIn t
    · rw [if_pos h]
      exact iff_of_false (by simp) (by omega)
    · rw [if_neg h]
      exact iff_of_true rfl (by omega)
  · intro h1 h2
    rw [Nat.mod_eq_of_lt h1] at hin
    rw [Nat.mod_eq_of_lt h2] at hout
    constructor
    · unfold validate_filled_transaction
      by_cases h : valueOut t > valueIn t
      · rw [if_pos h]
        exact iff_of_true rfl (by omega)
      · rw [if_neg h]
        exact iff_of_false (by simp) (by omega)
    · intro hle
      unfold validate_filled_transaction
      have h : ¬ valueOut t > valueIn t := by omega
      rw [if_neg h, hin, hout]

/-- C6 witness: the amended characterisation applied at a concrete filled
transaction. -/
theorem validate_filled_transaction_spec_witness :
    validate_filled_transaction ftW6 = .ok 4 :=
  ((validate_filled_transaction_spec ftW6).2.2 (by decide) (by decide)).2 (by decide)

/-- C6 counterexample: a filled transaction whose mathematical output sum
exceeds its spent sum, on which validate_filled_transaction nevertheless
succeeds, contradicting the claim that it fails with NotEnoughValueIn
exactly when the output sum exceeds the spent sum. -/
theorem validate_filled_transaction_overflow_counterexample :
    validate_filled_transaction ftC6 = .ok 3
      ∧ trueValueIn ftC6 < trueValueOut ftC6 := by
  constructor
  · decide
  · decide

/- ===================== C10 ===================== -/

/-- C10: with unchecked u64 additions modelled as wrapping modulo 2 ^ 64,
there is a filled transaction whose true output sum is at least 2 ^ 64 on
which validate_filled_transaction does not fail with NotEnoughValueIn and
returns a wrapped, incorrect fee (the true output sum exceeds the true
input sum, so no fee is actually available). -/
theorem validate_filled_transaction_wrapped_fee :
    validate_filled_transaction ftC10 = .ok 5
      ∧ 2 ^ 64 ≤ trueValueOut ftC10
      ∧ trueValueIn ftC10 < trueValueOut ftC10 := by
  refine ⟨by decide, by decide, by decide⟩

/- ===================== C3 ===================== -/

/-- C3: a body spending an existing UTXO whose authorizations list is
empty, hence shorter than its total input count, passes validate_body for
every address-derivation function and every signature verifier: the
address check zips the authorizations with the spent utxos and stops at
the shorter list, and verification checks only the authorizations
present, vacuously succeeding on the empty list. -/
theorem validate_body_empty_authorizations
    (getAddr : Nat → Address) (verify : Authorization → Transaction → Bool) :
    validate_body getAddr verify utxosC3 bodyC3 = .ok 1
      ∧ bodyC3.authorizations.length
          < (bodyC3.transactions.map (fun t => t.inputs.length)).sum := by
  exact ⟨rfl, by decide⟩

/- ===================== C2 ===================== -/

theorem foldl_selStep_outputs (spk : MainAddress → List Nat)
    (l : List AggregatedWithdrawal) : ∀ sel : Selection,
    (l.foldl (selStep spk) sel).bundle_outputs
      = sel.bundle_outputs
          ++ l.map (fun a => { value := a.value, script_pubkey := spk a.main_address }) := by
  induction l with
  | nil => intro sel; simp
  | cons a t ih =>
    intro sel
    rw [List.foldl_cons, ih]
    simp [selStep]

theorem foldl_selStep_fee (spk : MainAddress → List Nat)
    (l : List AggregatedWithdrawal) : ∀ sel : Selection,
    (l.foldl (selStep spk) sel).fee
      = (l.map (fun a => a.main_fee)).foldl wadd sel.fee := by
  induction l with
  | nil => intro sel; rfl
  | cons a t ih => intro sel; rw [List.foldl_cons, ih]; rfl

theorem selectLoop_eq_take (spk : MainAddress → List Nat)
    (l : List AggregatedWithdrawal) : ∀ sel : Selection,
    sel.bundle_outputs.length ≤ MAX_BUNDLE_OUTPUTS + 1 →
    selectLoop spk sel l
      = (l.take (MAX_BUNDLE_OUTPUTS + 1 - sel.bundle_outputs.length)).foldl
          (selStep spk) sel := by
  induction l with
  | nil => intro sel h; simp [selectLoop]
  | cons a t ih =>
    intro sel h
    by_cases hlen : sel.bundle_outputs.length > MAX_BUNDLE_OUTPUTS
    · have h0 : MAX_BUNDLE_OUTPUTS + 1 - sel.bundle_outputs.length = 0 := by omega
      rw [h0]
      simp [selectLoop, hlen]
    · have hstep : (selStep spk sel a).bundle_outputs.length
          = sel.bundle_outputs.length + 1 := by simp [selStep]
      have h2 : MAX_BUNDLE_OUTPUTS + 1 - sel.bundle_outputs.length
          = (MAX_BUNDLE_OUTPUTS + 1 - (sel.bundle_outputs.length + 1)) + 1 := by omega
      rw [h2, List.take_succ_cons, List.foldl_cons]
      have hu : selectLoop spk sel (a :: t) = selectLoop spk (selStep spk sel a) t := by
        simp [selectLoop, hlen]
      rw [hu, ih (selStep spk sel a) (by omega), hstep]

/-- C2 (amended): MAX_BUNDLE_OUTPUTS computes to 3121; the aggregated
withdrawals are sorted in descending order by AggregatedWithdrawal cmp,
which returns Greater whenever the two aggregates differ and any of
main_fee, value, main_address is strictly greater — this is not the
claimed total order: two distinct aggregates can both compare Greater
than each other — and the greedy selection takes aggregates while the
selected count is at most MAX_BUNDLE_OUTPUTS, so it selects exactly the
first min(n, MAX_BUNDLE_OUTPUTS + 1) sorted aggregates, accumulating
their outputs and wrapped main_fee sum. -/
theorem withdrawal_order_and_greedy_selection (spk : MainAddress → List Nat) :
    MAX_BUNDLE_OUTPUTS = 3121
    ∧ (∀ a b : AggregatedWithdrawal, a ≠ b →
        (a.cmp b = .gt ↔
          b.main_fee < a.main_fee ∨ b.value < a.value ∨ b.main_address < a.main_address))
    ∧ (∃ a b : AggregatedWithdrawal, a ≠ b ∧ a.cmp b = .gt ∧ b.cmp a = .gt)
    ∧ ∀ l : List AggregatedWithdrawal,
        (selectLoop spk { fee := 0, spent_utxos := [], bundle_outputs := [] } l).bundle_outputs
            = (l.take (MAX_BUNDLE_OUTPUTS + 1)).map
                (fun a => { value := a.value, script_pubkey := spk a.main_address })
          ∧ (selectLoop spk { fee := 0, spent_utxos := [], bundle_outputs := [] } l).fee
            = ((l.take (MAX_BUNDLE_OUTPUTS + 1)).map (fun a => a.main_fee)).foldl wadd 0 := by
  refine ⟨by decide, ?_, ?_, ?_⟩
  · intro a b hne
    unfold AggregatedWithdrawal.cmp
    rw [if_neg hne]
    by_cases hgt : a.main_fee > b.main_fee ∨ a.value > b.value ∨ a.main_address > b.main_address
    · rw [if_pos hgt]
      exact iff_of_true rfl hgt
    · rw [if_neg hgt]
      exact iff_of_false (by simp) hgt
  · exact ⟨{ spent_utxos := [], main_address := 1, value := 2, main_fee := 1 },
      { spent_utxos := [], main_address := 2, value := 1, main_fee := 2 },
      by decide, by decide, by decide⟩
  · intro l
    have h := selectLoop_eq_take spk l
      { fee := 0, spent_utxos := [], bundle_outputs := [] } (by simp)
    rw [h]
    constructor
    · rw [foldl_selStep_outputs]
      simp
    · rw [foldl_selStep_fee]
      simp

/-- C2 counterexample: under the claimed total order that prefers higher
main_fee first, aggB would be strictly greater than aggA, so cmp aggA
aggB would be Less; the code returns Greater in both directions, which no
total order allows for distinct elements. -/
theorem aggregated_withdrawal_cmp_not_total_order :
    AggregatedWithdrawal.cmp aggA aggB = .gt
      ∧ AggregatedWithdrawal.cmp aggB aggA = .gt
      ∧ aggA.main_fee < aggB.main_fee := by decide

/-- C2 witness: the amended order and selection facts applied at concrete
aggregates. -/
theorem withdrawal_order_and_greedy_selection_witness :
    AggregatedWithdrawal.cmp aggA aggB = .gt
      ∧ (selectLoop (fun _ => [])
          { fee := 0, spent_utxos := [], bundle_outputs := [] } [aggA, aggB]).fee = 3 := by
  constructor
  · exact ((withdrawal_order_and_greedy_selection (fun _ => [])).2.1 aggA aggB
      (by decide)).mpr (by decide)
  · rw [((withdrawal_order_and_greedy_selection (fun _ => [])).2.2.2 [aggA, aggB]).2]
    decide

/- ===================== C1 ===================== -/

/-- C1: collect_withdrawal_bundle is not deterministic in (utxos,
block_height).  The aggregates are iterated out of a HashMap and sorted
with the non-total AggregatedWithdrawal cmp (the two aggregates of
utxosC1 compare Greater in both directions, so no ordering between them
is guaranteed); two admissible runs, differing only in that admissible
iteration order, produce different bundle transactions — their fourth
outputs carry different values, so the serialisations differ — and
commit to different outpoint lists, neither of which is required to be
sorted. -/
theorem collect_withdrawal_bundle_nondeterministic :
    PermIter iterId ∧ PermIter iterRev ∧ KeysIter keysId
    ∧ (aggregate utxosC1).map Prod.snd = [aggC1a, aggC1b]
    ∧ AggregatedWithdrawal.cmp aggC1a aggC1b = .gt
    ∧ AggregatedWithdrawal.cmp aggC1b aggC1a = .gt
    ∧ collect_withdrawal_bundle hashFn0 spk0 iterId keysId utxosC1 5
        ≠ collect_withdrawal_bundle hashFn0 spk0 iterRev keysId utxosC1 5
    ∧ bundleCommitmentInputs keysId
        (selectLoop spk0 { fee := 0, spent_utxos := [], bundle_outputs := [] }
          (iterId ((aggregate utxosC1).map Prod.snd))).spent_utxos 5
      ≠ bundleCommitmentInputs keysId
        (selectLoop spk0 { fee := 0, spent_utxos := [], bundle_outputs := [] }
          (iterRev ((aggregate utxosC1).map Prod.snd))).spent_utxos 5 :=
  ⟨fun l => List.Perm.refl l, fun l => l.reverse_perm, fun m => List.Perm.refl _,
    by decide, by decide, by decide, by decide, by decide⟩

/- ===================== C9 ===================== -/

theorem putLoop_ok_mem (l : List OutPoint) :
    ∀ spent res, putLoop spent l = .ok res → ∀ i, i ∈ spent ∨ i ∈ l → i ∈ res := by
  induction l with
  | nil =>
    intro spent res h i hi
    simp only [putLoop] at h
    cases h
    cases hi with
    | inl hs => exact hs
    | inr hl => cases hl
  | cons j t ih =>
    intro spent res h i hi
    simp only [putLoop] at h
    by_cases hj : j ∈ spent
    · rw [if_pos hj] at h
      cases h
    · rw [if_neg hj] at h
      refine ih (j :: spent) res h i ?_
      cases hi with
      | inl hs => exact Or.inl (List.mem_cons_of_mem j hs)
      | inr hl =>
        cases hl with
        | head => exact Or.inl (List.mem_cons_self j spent)
        | tail _ hit => exact Or.inr hit

theorem putLoop_collision (l : List OutPoint) :
    ∀ spent (i : OutPoint), i ∈ l → i ∈ spent →
    putLoop spent l = .error .UtxoDoubleSpent := by
  induction l with
  | nil =>
    intro spent i hi
    cases hi
  | cons j t ih =>
    intro spent i hil his
    by_cases hj : j ∈ spent
    · simp only [putLoop]
      rw [if_pos hj]
    · simp only [putLoop]
      rw [if_neg hj]
      cases hil with
      | head => exact absurd his hj
      | tail _ hit => exact ih (j :: spent) i hit (List.mem_cons_of_mem j his)

/-- C9: MemPool put records every input of the admitted transaction in
spent_utxos, but MemPool delete removes only the transactions entry; so
after put of t followed by delete of its txid, every input of t is still
in spent_utxos, and a later put of any transaction spending such an input
fails with UtxoDoubleSpent. -/
theorem mempool_delete_leaks_spent_utxos
    (stxid : Transaction → Txid) (m m1 : MemPool)
    (t u : AuthorizedTransaction) (i : OutPoint)
    (hput : MemPool.put stxid m t = .ok m1)
    (hi : i ∈ t.transaction.inputs) (hu : i ∈ u.transaction.inputs) :
    i ∈ (m1.delete (stxid t.transaction)).spent_utxos
      ∧ MemPool.put stxid (m1.delete (stxid t.transaction)) u
          = .error .UtxoDoubleSpent := by
  unfold MemPool.put at hput
  cases hpl : putLoop m.spent_utxos t.transaction.inputs with
  | error e => rw [hpl] at hput; cases hput
  | ok spent =>
    rw [hpl] at hput
    cases hput
    have hmem : i ∈ spent := putLoop_ok_mem _ _ _ hpl i (Or.inr hi)
    refine ⟨hmem, ?_⟩
    unfold MemPool.put
    simp only [MemPool.delete]
    rw [putLoop_collision _ _ i hu hmem]

/-- C9 witness: the leak demonstrated on a concrete mempool run. -/
theorem mempool_delete_leaks_spent_utxos_witness :
    OutPoint.Regular 5 0 ∈ (memPool1.delete 0).spent_utxos
      ∧ MemPool.put (fun _ => 0) (memPool1.delete 0) txU
          = .error .UtxoDoubleSpent :=
  mempool_delete_leaks_spent_utxos (fun _ => 0)
    { transactions := [], spent_utxos := [] } memPool1 txT txU
    (OutPoint.Regular 5 0) (by decide) (by decide) (by decide)

/- ===================== C8 ===================== -/

/-- C8: one step of the bundle-status loop of connect_two_way_peg_data.
With no pending bundle, or a pending bundle whose mainchain txid differs
from the status txid, the state is unchanged.  When the txid matches:
Failed deletes the pending bundle, re-inserts every spent utxo of the
bundle and records failure height block_height + 1; Confirmed deletes
the pending bundle, leaving utxos and the failure height unchanged. -/
theorem bundle_status_settlement (btxid : BTransaction → Nat) (h : Nat) (s : State)
    (txid : Nat) (st : WithdrawalBundleStatus) :
    (assocGet s.pending_withdrawal_bundle 0 = none →
        applyBundleStatus btxid h s (txid, st) = s)
    ∧ ∀ b, assocGet s.pending_withdrawal_bundle 0 = some b →
        (btxid b.transaction ≠ txid → applyBundleStatus btxid h s (txid, st) = s)
        ∧ (btxid b.transaction = txid →
            (s.pending_withdrawal_bundle.map Prod.fst).Nodup →
            (st = .Failed →
              assocGet (applyBundleStatus btxid h s (txid, st)).pending_withdrawal_bundle 0
                  = none
                ∧ assocGet
                    (applyBundleStatus btxid h s (txid, st)).last_withdrawal_bundle_failure_height
                    0 = some ((h + 1) % U32)
                ∧ (applyBundleStatus btxid h s (txid, st)).utxos
                    = mapExtend s.utxos b.spent_utxos
                ∧ ((b.spent_utxos.map Prod.fst).Nodup →
                    ∀ kv ∈ b.spent_utxos,
                      assocGet (applyBundleStatus btxid h s (txid, st)).utxos kv.1 = some kv.2)
                ∧ (∀ k, k ∉ b.spent_utxos.map Prod.fst →
                    assocGet (applyBundleStatus btxid h s (txid, st)).utxos k
                      = assocGet s.utxos k))
            ∧ (st = .Confirmed →
              assocGet (applyBundleStatus btxid h s (txid, st)).pending_withdrawal_bundle 0
                  = none
                ∧ (applyBundleStatus btxid h s (txid, st)).utxos = s.utxos
                ∧ (applyBundleStatus btxid h s (txid, st)).last_withdrawal_bundle_failure_height
                    = s.last_withdrawal_bundle_failure_height)) := by
  constructor
  · intro hnone
    unfold applyBundleStatus
    rw [hnone]
  · intro b hsome
    constructor
    · intro hne
      unfold applyBundleStatus
      rw [hsome]
      simp only [if_pos hne]
    · intro heq hnd
      have hif : ¬ btxid b.transaction ≠ txid := fun hc => hc heq
      constructor
      · intro hst
        subst hst
        unfold applyBundleStatus
        rw [hsome]
        simp only [if_neg hif]
        refine ⟨assocGet_delete_self_nodup _ 0 hnd, assocGet_put_self _ 0 _, trivial, ?_, ?_⟩
        · intro hnd2 kv hkv
          exact assocGet_mapExtend_mem b.spent_utxos s.utxos hnd2 kv hkv
        · intro k hk
          exact assocGet_mapExtend_not_mem b.spent_utxos s.utxos k hk
      · intro hst
        subst hst
        unfold applyBundleStatus
        rw [hsome]
        simp only [if_neg hif]
        exact ⟨assocGet_delete_self_nodup _ 0 hnd, trivial, trivial⟩

/- ===================== C4 ===================== -/

theorem pendOk_put (l : List (Nat × WithdrawalBundle)) (b : WithdrawalBundle)
    (h : PendOk l) : PendOk (assocPut l 0 b) := by
  cases h with
  | inl he => subst he; exact Or.inr ⟨b, rfl⟩
  | inr he =>
    obtain ⟨c, hc⟩ := he
    subst hc
    exact Or.inr ⟨b, rfl⟩

theorem pendOk_delete (l : List (Nat × WithdrawalBundle)) (h : PendOk l) :
    PendOk (assocDelete l 0) := by
  cases h with
  | inl he => subst he; exact Or.inl rfl
  | inr he =>
    obtain ⟨c, hc⟩ := he
    subst hc
    exact Or.inl rfl

theorem pendOk_applyBundleStatus (btxid : BTransaction → Nat) (h : Nat) (s : State)
    (p : Nat × WithdrawalBundleStatus) (hs : PendOk s.pending_withdrawal_bundle) :
    PendOk (applyBundleStatus btxid h s p).pending_withdrawal_bundle := by
  unfold applyBundleStatus
  cases hget : assocGet s.pending_withdrawal_bundle 0 with
  | none => exact hs
  | some b =>
    by_cases hne : btxid b.transaction ≠ p.1
    · simp only [if_pos hne]
      exact hs
    · simp only [if_neg hne]
      cases p.2 with
      | Failed => exact pendOk_delete _ hs
      | Confirmed => exact pendOk_delete _ hs

theorem pendOk_statusFold (btxid : BTransaction → Nat) (h : Nat)
    (l : List (Nat × WithdrawalBundleStatus)) : ∀ s : State,
    PendOk s.pending_withdrawal_bundle →
    PendOk ((l.foldl (applyBundleStatus btxid h) s)).pending_withdrawal_bundle := by
  induction l with
  | nil => intro s hs; exact hs
  | cons p t ih =>
    intro s hs
    exact ih (applyBundleStatus btxid h s p) (pendOk_applyBundleStatus btxid h s p hs)

theorem pendOk_bundleEmergence
    (hashFn : List OutPoint → List Nat) (spk : MainAddress → List Nat)
    (iterAgg : List AggregatedWithdrawal → List AggregatedWithdrawal)
    (iterKeys : List (OutPoint × Output) → List OutPoint)
    (block_height : Nat) (s s2 : State)
    (hs : PendOk s.pending_withdrawal_bundle)
    (h : bundleEmergence hashFn spk iterAgg iterKeys block_height s = .ok s2) :
    PendOk s2.pending_withdrawal_bundle := by
  unfold bundleEmergence at h
  by_cases hc : wsub32 ((block_height + 1) % U32)
      ((assocGet s.last_withdrawal_bundle_failure_height 0).getD 0)
        > WITHDRAWAL_BUNDLE_FAILURE_GAP
      ∧ assocGet s.pending_withdrawal_bundle 0 = none
  · rw [if_pos hc] at h
    cases hcol : collect_withdrawal_bundle hashFn spk iterAgg iterKeys s.utxos
        ((block_height + 1) % U32) with
    | error e => rw [hcol] at h; cases h
    | ok ob =>
      rw [hcol] at h
      cases ob with
      | none => cases h; exact hs
      | some bundle => cases h; exact pendOk_put _ bundle hs
  · rw [if_neg hc] at h
    cases h
    exact hs

theorem pendOk_connect_two_way_peg_data
    (hashFn : List OutPoint → List Nat) (spk : MainAddress → List Nat)
    (iterAgg : List AggregatedWithdrawal → List AggregatedWithdrawal)
    (iterKeys : List (OutPoint × Output) → List OutPoint)
    (btxid : BTransaction → Nat) (data : TwoWayPegData) (block_height : Nat)
    (s s2 : State) (hs : PendOk s.pending_withdrawal_bundle)
    (h : connect_two_way_peg_data hashFn spk iterAgg iterKeys btxid data block_height s
        = .ok s2) :
    PendOk s2.pending_withdrawal_bundle := by
  unfold connect_two_way_peg_data at h
  cases hdep : data.deposit_block_hash with
  | none =>
    rw [hdep] at h
    dsimp only at h
    cases hem : bundleEmergence hashFn spk iterAgg iterKeys block_height
        { s with utxos := applyDeposits s.utxos data.deposits } with
    | error e => rw [hem] at h; cases h
    | ok s3 =>
      rw [hem] at h
      cases h
      exact pendOk_statusFold btxid block_height data.bundle_statuses s3
        (pendOk_bundleEmergence hashFn spk iterAgg iterKeys block_height
          { s with utxos := applyDeposits s.utxos data.deposits } s3 hs hem)
  | some dh =>
    rw [hdep] at h
    dsimp only at h
    cases hem : bundleEmergence hashFn spk iterAgg iterKeys block_height
        { s with
            last_deposit_block := assocPut s.last_deposit_block 0 dh
            utxos := applyDeposits s.utxos data.deposits } with
    | error e => rw [hem] at h; cases h
    | ok s3 =>
      rw [hem] at h
      cases h
      exact pendOk_statusFold btxid block_height data.bundle_statuses s3
        (pendOk_bundleEmergence hashFn spk iterAgg iterKeys block_height
          { s with
              last_deposit_block := assocPut s.last_deposit_block 0 dh
              utxos := applyDeposits s.utxos data.deposits } s3 hs hem)

theorem pendOk_runOps
    (hashFn : List OutPoint → List Nat) (spk : MainAddress → List Nat)
    (btxid : BTransaction → Nat) (merkleFn : Body → MerkleRoot)
    (stxid : Transaction → Txid) (ops : List StateOp) : ∀ s : State,
    PendOk s.pending_withdrawal_bundle →
    PendOk (runOps hashFn spk btxid merkleFn stxid s ops).pending_withdrawal_bundle := by
  induction ops with
  | nil => intro s hs; exact hs
  | cons op t ih =>
    intro s hs
    have hstep : PendOk
        (match execOp hashFn spk btxid merkleFn stxid s op with
          | .ok st2 => st2
          | .error _ => s).pending_withdrawal_bundle := by
      cases op with
      | connectBody body => exact hs
      | connectPeg data h iterAgg iterKeys =>
        cases hex : connect_two_way_peg_data hashFn spk iterAgg iterKeys btxid data h s with
        | error e => simp only [execOp, hex]; exact hs
        | ok s2 =>
          simp only [execOp, hex]
          exact pendOk_connect_two_way_peg_data hashFn spk iterAgg iterKeys btxid
            data h s s2 hs hex
    exact ih _ hstep

/-- C4: starting from the empty state, after every sequence of State
operations (connect_body, and connect_two_way_peg_data at any heights,
with any peg data and any HashMap iteration orders) the
pending_withdrawal_bundle database holds at most one entry and every key
in it is 0: a bundle is only ever stored by assocPut at key 0, guarded by
the failure-gap condition and the absence of a pending bundle, and every
matching bundle status deletes key 0. -/
theorem pending_withdrawal_bundle_single_entry
    (hashFn : List OutPoint → List Nat) (spk : MainAddress → List Nat)
    (btxid : BTransaction → Nat) (merkleFn : Body → MerkleRoot)
    (stxid : Transaction → Txid) (ops : List StateOp) :
    (runOps hashFn spk btxid merkleFn stxid initState ops).pending_withdrawal_bundle.length ≤ 1
    ∧ ((runOps hashFn spk btxid merkleFn stxid initState
          ops).pending_withdrawal_bundle.map Prod.fst).all (fun k => k == 0) = true := by
  have h := pendOk_runOps hashFn spk btxid merkleFn stxid ops initState (Or.inl rfl)
  cases h with
  | inl he => rw [he]; exact ⟨by simp, by simp⟩
  | inr he =>
    obtain ⟨b, hb⟩ := he
    rw [hb]
    exact ⟨by simp, by simp⟩

/-- C8 witness: a matching Failed status at height 7 settles the concrete
pending bundle: bundle deleted, failure height 8 recorded, spent utxo
restored. -/
theorem bundle_status_settlement_witness :
    assocGet (applyBundleStatus (fun _ => 42) 7 stateW8 (42, .Failed)).pending_withdrawal_bundle 0
        = none
      ∧ assocGet
          (applyBundleStatus (fun _ => 42) 7 stateW8
            (42, .Failed)).last_withdrawal_bundle_failure_height 0 = some ((7 + 1) % U32)
      ∧ assocGet (applyBundleStatus (fun _ => 42) 7 stateW8 (42, .Failed)).utxos
          (OutPoint.Regular 10 0)
          = some { address := 1, content := .withdrawal 2 1 1 } := by
  have hmain := (((bundle_status_settlement (fun _ => 42) 7 stateW8 42 .Failed).2 bundleW8
    (by decide)).2 rfl (by decide)).1 rfl
  exact ⟨hmain.1, hmain.2.1,
    hmain.2.2.2.1 (by decide) (OutPoint.Regular 10 0, { address := 1, content := .withdrawal 2 1 1 })
      (by decide)⟩

/- ===================== C7 ===================== -/

theorem chainFrom_key_bounds (hs : List Header) : ∀ n kv, kv ∈ chainFrom n hs →
    n < kv.1 ∧ kv.1 ≤ n + hs.length := by
  induction hs with
  | nil => intro n kv h; cases h
  | cons h t ih =>
    intro n kv hkv
    cases hkv with
    | head => simp
    | tail _ hm =>
      have hb := ih (n + 1) kv hm
      simp only [List.length_cons]
      omega

theorem chainFrom_concat (hs : List Header) (h : Header) : ∀ n,
    chainFrom n (hs ++ [h]) = chainFrom n hs ++ [(n + hs.length + 1, h)] := by
  induction hs with
  | nil => intro n; simp [chainFrom]
  | cons x t ih =>
    intro n
    show (n + 1, x) :: chainFrom (n + 1) (t ++ [h])
        = ((n + 1, x) :: chainFrom (n + 1) t) ++ [(n + (x :: t).length + 1, h)]
    rw [ih (n + 1), List.cons_append]
    have hk : n + 1 + t.length + 1 = n + (x :: t).length + 1 := by
      simp only [List.length_cons]
      omega
    rw [hk]

theorem dbLast_chainFrom_concat (done : List Header) (h : Header) : ∀ n,
    dbLast (chainFrom n (done ++ [h])) = some (n + done.length + 1, h) := by
  induction done with
  | nil => intro n; simp [chainFrom, dbLast]
  | cons d t ih =>
    intro n
    show dbLast ((n + 1, d) :: chainFrom (n + 1) (t ++ [h]))
        = some (n + (d :: t).length + 1, h)
    simp only [dbLast, ih (n + 1)]
    have hlt : ¬ (n + 1 + t.length + 1 < n + 1) := by omega
    simp only [if_neg hlt]
    have hk : n + 1 + t.length + 1 = n + (d :: t).length + 1 := by
      simp only [List.length_cons]
      omega
    rw [hk]

theorem assocPut_not_mem {K V : Type} [DecidableEq K] (db : List (K × V)) (k : K) (v : V)
    (h : ∀ kv ∈ db, kv.1 ≠ k) : assocPut db k v = db ++ [(k, v)] := by
  induction db with
  | nil => rfl
  | cons kv t ih =>
    have hne : kv.1 ≠ k := h kv (List.mem_cons_self kv t)
    simp only [assocPut, if_neg hne, List.cons_append]
    rw [ih (fun kv2 hm => h kv2 (List.mem_cons_of_mem kv hm))]

theorem assocGet_chainFrom (hs : List Header) : ∀ n k,
    assocGet (chainFrom n hs) (n + k + 1) = hs[k]? := by
  induction hs with
  | nil => intro n k; simp [chainFrom, assocGet]
  | cons h t ih =>
    intro n k
    cases k with
    | zero => simp [chainFrom, assocGet]
    | succ k2 =>
      have hne : ¬ (n + 1 = n + (k2 + 1) + 1) := by omega
      simp only [chainFrom, assocGet, if_neg hne]
      have h2 : n + (k2 + 1) + 1 = (n + 1) + k2 + 1 := by omega
      rw [h2, ih (n + 1) k2]
      simp

theorem get_height_chain (hs : List Header) (a : Archive)
    (ha : a.headers = chainFrom 0 hs) : get_height a = hs.length := by
  rcases List.eq_nil_or_concat hs with hnil | ⟨done, x, hdx⟩
  · subst hnil
    rw [get_height, ha]
    rfl
  · subst hdx
    simp only [List.concat_eq_append] at ha ⊢
    rw [get_height, ha, dbLast_chainFrom_concat done x 0]
    simp

theorem get_best_hash_chain (headerHash : Header → BlockHash) (hs : List Header)
    (a : Archive) (ha : a.headers = chainFrom 0 hs) :
    get_best_hash headerHash a
      = (match hs.getLast? with | none => 0 | some x => headerHash x) := by
  rcases List.eq_nil_or_concat hs with hnil | ⟨done, x, hdx⟩
  · subst hnil
    rw [get_best_hash, ha]
    rfl
  · subst hdx
    simp only [List.concat_eq_append] at ha ⊢
    rw [get_best_hash, ha, dbLast_chainFrom_concat done x 0, List.getLast?_concat]

theorem append_header_chain_ok (headerHash : Header → BlockHash) (hs : List Header)
    (a : Archive) (h : Header) (ha : a.headers = chainFrom 0 hs)
    (hlen : hs.length + 1 < U32)
    (hprev : h.prev_side_hash = get_best_hash headerHash a) :
    append_header headerHash a h = .ok { a with
      headers := chainFrom 0 (hs ++ [h])
      hash_to_height := assocPut a.hash_to_height (headerHash h) (hs.length + 1) } := by
  unfold append_header
  have hcond : ¬ h.prev_side_hash ≠ get_best_hash headerHash a := fun hc => hc hprev
  rw [if_neg hcond, get_height_chain hs a ha]
  have hmod : (hs.length + 1) % U32 = hs.length + 1 := Nat.mod_eq_of_lt hlen
  rw [hmod, ha]
  have hput : assocPut (chainFrom 0 hs) (hs.length + 1) h
      = chainFrom 0 hs ++ [(hs.length + 1, h)] := by
    refine assocPut_not_mem (chainFrom 0 hs) (hs.length + 1) h ?_
    intro kv hkv
    have hb := chainFrom_key_bounds hs 0 kv hkv
    omega
  have hc : chainFrom 0 (hs ++ [h]) = chainFrom 0 hs ++ [(hs.length + 1, h)] := by
    rw [chainFrom_concat hs h 0]
    have h0 : (0 : Nat) + hs.length + 1 = hs.length + 1 := by omega
    rw [h0]
  rw [hput, hc]

theorem appendAll_chain (headerHash : Header → BlockHash) (hs : List Header) :
    ∀ (done : List Header) (a a2 : Archive),
    a.headers = chainFrom 0 done → done.length + hs.length < U32 →
    appendAll headerHash hs a = .ok a2 → a2.headers = chainFrom 0 (done ++ hs) := by
  induction hs with
  | nil =>
    intro done a a2 ha hlen happ
    simp only [appendAll] at happ
    cases happ
    simpa using ha
  | cons x t ih =>
    intro done a a2 ha hlen happ
    simp only [appendAll] at happ
    by_cases hprev : x.prev_side_hash = get_best_hash headerHash a
    · have hxlen : (x :: t).length = t.length + 1 := List.length_cons x t
      have hlen2 : done.length + 1 < U32 := by omega
      rw [append_header_chain_ok headerHash done a x ha hlen2 hprev] at happ
      have h2 : ((done ++ [x]) : List Header).length + t.length < U32 := by
        simp only [List.length_append, List.length_cons, List.length_nil]
        simp only [List.length_cons] at hlen
        omega
      have h3 := ih (done ++ [x])
        { a with
          headers := chainFrom 0 (done ++ [x])
          hash_to_height := assocPut a.hash_to_height (headerHash x) (done.length + 1) }
        a2 rfl h2 happ
      rw [h3, List.append_assoc]
      rfl
    · unfold append_header at happ
      rw [if_pos hprev] at happ
      cases happ

/-- C7: for every archive reached by successfully appending hs headers to
the empty archive (with room below the u32 key bound): get_height is 0 and
get_best_hash is the all-zeros hash when hs is empty, and otherwise the
count of appended headers and the hash of the last appended header; the
header appended i-th is stored at key i + 1, so the first has height 1;
a further append fails with InvalidPrevSideHash exactly unless
prev_side_hash equals get_best_hash, and on success stores the header at
key length + 1 and maps its hash to that height. -/
theorem archive_append_spec (headerHash : Header → BlockHash)
    (hs : List Header) (a : Archive) (hlen : hs.length + 1 < U32)
    (happ : appendAll headerHash hs emptyArchive = .ok a) :
    get_height a = hs.length
    ∧ (hs = [] → get_height a = 0 ∧ get_best_hash headerHash a = 0)
    ∧ (∀ x, hs.getLast? = some x → get_best_hash headerHash a = headerHash x)
    ∧ (∀ i : Nat, assocGet a.headers (i + 1) = hs[i]?)
    ∧ (∀ header : Header, header.prev_side_hash ≠ get_best_hash headerHash a →
        append_header headerHash a header = .error .InvalidPrevSideHash)
    ∧ (∀ header : Header, header.prev_side_hash = get_best_hash headerHash a →
        ∃ a2, append_header headerHash a header = .ok a2
          ∧ assocGet a2.headers (hs.length + 1) = some header
          ∧ assocGet a2.hash_to_height (headerHash header) = some (hs.length + 1)
          ∧ get_height a2 = hs.length + 1) := by
  have ha : a.headers = chainFrom 0 hs :=
    appendAll_chain headerHash hs [] emptyArchive a rfl (by simpa using (by omega : hs.length < U32)) happ
  refine ⟨get_height_chain hs a ha, ?_, ?_, ?_, ?_, ?_⟩
  · intro hnil
    subst hnil
    exact ⟨get_height_chain [] a ha, get_best_hash_chain headerHash [] a ha⟩
  · intro x hx
    rw [get_best_hash_chain headerHash hs a ha, hx]
  · intro i
    have h0 : (0 : Nat) + i + 1 = i + 1 := by omega
    rw [ha, ← h0, assocGet_chainFrom hs 0 i]
  · intro header hne
    unfold append_header
    rw [if_pos hne]
  · intro header hprev
    refine ⟨_, append_header_chain_ok headerHash hs a header ha hlen hprev, ?_, ?_, ?_⟩
    · show assocGet (chainFrom 0 (hs ++ [header])) (hs.length + 1) = some header
      have h0 : (0 : Nat) + hs.length + 1 = hs.length + 1 := by omega
      rw [← h0, assocGet_chainFrom (hs ++ [header]) 0 hs.length]
      simp
    · exact assocGet_put_self a.hash_to_height (headerHash header) (hs.length + 1)
    · have h2 := get_height_chain (hs ++ [header])
        { a with
          headers := chainFrom 0 (hs ++ [header])
          hash_to_height := assocPut a.hash_to_height (headerHash header) (hs.length + 1) }
        rfl
      simpa using h2

/-- C7 witness: the archive characterisation applied to a concrete
two-header chain. -/
theorem archive_append_spec_witness :
    get_height archW7 = 2
      ∧ get_best_hash headerHashW archW7 = 22
      ∧ assocGet archW7.headers 1 = some hW1 := by
  have h := archive_append_spec headerHashW [hW1, hW2] archW7 (by decide) (by decide)
  refine ⟨h.1, h.2.2.1 hW2 rfl, ?_⟩
  rw [h.2.2.2.1 0]
  rfl

/- ===================== C5 ===================== -/

theorem except_bind_ok {E A B : Type} (x : A) (f : A → Except E B) :
    ((Except.ok x : Except E A) >>= f) = f x := rfl

theorem except_bind_error {E A B : Type} (er : E) (f : A → Except E B) :
    ((Except.error er : Except E A) >>= f) = Except.error er := rfl

theorem validate_ok_of_le (ft : FilledTransaction) (h : valueOut ft ≤ valueIn ft) :
    validate_filled_transaction ft = .ok (valueIn ft - valueOut ft) := by
  unfold validate_filled_transaction
  rw [if_neg (by omega)]

theorem checkTxInputs_nodup_ok (l : List OutPoint) : ∀ spent : List OutPoint,
    (spent ++ l).Nodup →
    ∃ r, checkTxInputs spent l = .ok r ∧ r.Perm (spent ++ l) ∧ r.Nodup := by
  induction l with
  | nil =>
    intro spent hnd
    refine ⟨spent, rfl, by simp, by simpa using hnd⟩
  | cons i rest ih =>
    intro spent hnd
    have hperm : (spent ++ i :: rest).Perm (i :: (spent ++ rest)) := List.perm_middle
    have hnd2 : (i :: (spent ++ rest)).Nodup := hperm.nodup hnd
    have hi : i ∉ spent := by
      have hni := (List.nodup_cons.mp hnd2).1
      intro hc
      exact hni (List.mem_append.mpr (Or.inl hc))
    simp only [checkTxInputs, if_neg hi]
    have hnd3 : ((i :: spent) ++ rest).Nodup := by
      simpa using hnd2
    obtain ⟨r, hr, hp, hrnd⟩ := ih (i :: spent) hnd3
    exact ⟨r, hr, hp.trans hperm.symm, hrnd⟩

theorem checkTxInputs_not_nodup (l : List OutPoint) : ∀ spent : List OutPoint,
    spent.Nodup → ¬ (spent ++ l).Nodup →
    checkTxInputs spent l = .error .UtxoDoubleSpent := by
  induction l with
  | nil =>
    intro spent hs hnd
    exact absurd (by simp [hs]) hnd
  | cons i rest ih =>
    intro spent hs hnd
    by_cases hi : i ∈ spent
    · simp only [checkTxInputs, if_pos hi]
    · simp only [checkTxInputs, if_neg hi]
      have hperm : (spent ++ i :: rest).Perm ((i :: spent) ++ rest) := by
        rw [List.cons_append]
        exact List.perm_middle
      refine ih (i :: spent) (List.nodup_cons.mpr ⟨hi, hs⟩) ?_
      intro hc
      exact hnd (hperm.symm.nodup hc)

theorem feesLoop_spec (fts : List FilledTransaction)
    (hvals : ∀ ft ∈ fts, valueOut ft ≤ valueIn ft) :
    ∀ (spent : List OutPoint) (total : Nat), spent.Nodup →
    ((spent ++ allInputs fts).Nodup →
        feesLoop spent total fts
          = .ok ((fts.map (fun ft => valueIn ft - valueOut ft)).foldl wadd total))
    ∧ (¬ (spent ++ allInputs fts).Nodup →
        feesLoop spent total fts = .error .UtxoDoubleSpent) := by
  induction fts with
  | nil =>
    intro spent total hs
    constructor
    · intro _; rfl
    · intro hnd
      exact absurd (by simp [allInputs, hs]) hnd
  | cons ft rest ih =>
    intro spent total hs
    have hv : valueOut ft ≤ valueIn ft := hvals ft (List.mem_cons_self ft rest)
    have hvrest : ∀ g ∈ rest, valueOut g ≤ valueIn g :=
      fun g hg => hvals g (List.mem_cons_of_mem ft hg)
    have hflat : allInputs (ft :: rest) = ft.transaction.inputs ++ allInputs rest := by
      simp [allInputs]
    constructor
    · intro hnd
      rw [hflat, ← List.append_assoc] at hnd
      have hnd1 : (spent ++ ft.transaction.inputs).Nodup := hnd.of_append_left
      obtain ⟨r, hr, hp, hrnd⟩ := checkTxInputs_nodup_ok ft.transaction.inputs spent hnd1
      have hnd2 : (r ++ allInputs rest).Nodup :=
        ((hp.append_right (allInputs rest)).nodup_iff).mpr hnd
      have hrec := (ih hvrest r (wadd total (valueIn ft - valueOut ft)) hrnd).1 hnd2
      simp only [feesLoop, hr, validate_ok_of_le ft hv, except_bind_ok]
      rw [hrec]
      simp
    · intro hnd
      rw [hflat, ← List.append_assoc] at hnd
      by_cases hnd1 : (spent ++ ft.transaction.inputs).Nodup
      · obtain ⟨r, hr, hp, hrnd⟩ := checkTxInputs_nodup_ok ft.transaction.inputs spent hnd1
        have hnd2 : ¬ (r ++ allInputs rest).Nodup := by
          intro hc
          exact hnd (((hp.append_right (allInputs rest)).nodup_iff).mp hc)
        have hrec := (ih hvrest r (wadd total (valueIn ft - valueOut ft)) hrnd).2 hnd2
        simp only [feesLoop, hr, validate_ok_of_le ft hv, except_bind_ok]
        rw [hrec]
      · have hr := checkTxInputs_not_nodup ft.transaction.inputs spent hs hnd1
        simp only [feesLoop, hr, except_bind_error]

theorem fillAll_transactions (utxos : UtxoDb) (ts : List Transaction) :
    ∀ fts, fillAll utxos ts = .ok fts →
    fts.map (fun ft => ft.transaction) = ts := by
  induction ts with
  | nil =>
    intro fts h
    simp only [fillAll] at h
    cases h
    rfl
  | cons t rest ih =>
    intro fts h
    simp only [fillAll] at h
    cases hft : fill_transaction utxos t with
    | error e => rw [hft] at h; cases h
    | ok ft =>
      rw [hft] at h
      cases hrest : fillAll utxos rest with
      | error e => rw [hrest] at h; simp only [except_bind_ok, except_bind_error] at h; cases h
      | ok fts2 =>
        rw [hrest] at h
        simp only [except_bind_ok] at h
        cases h
        have htr : ft.transaction = t := by
          unfold fill_transaction at hft
          cases hl : lookupSpent utxos t.inputs with
          | error e => rw [hl] at hft; cases hft
          | ok l => rw [hl] at hft; cases hft; rfl
        simp only [List.map_cons, htr, ih fts2 hrest]

theorem checkAddresses_cases (getAddr : Nat → Address) (auths : List Authorization) :
    ∀ outs : List Output,
    checkAddresses getAddr auths outs = .ok ()
      ∨ checkAddresses getAddr auths outs = .error .WrongPubKeyForAddress := by
  induction auths with
  | nil =>
    intro outs
    cases outs with
    | nil => exact Or.inl rfl
    | cons s srest => exact Or.inl rfl
  | cons a arest ih =>
    intro outs
    cases outs with
    | nil => exact Or.inl rfl
    | cons s srest =>
      by_cases hne : getAddr a.public_key ≠ s.address
      · simp only [checkAddresses, if_pos hne]
        exact Or.inr trivial
      · simp only [checkAddresses, if_neg hne]
        exact ih srest

theorem validate_body_unfold (getAddr : Nat → Address)
    (verify : Authorization → Transaction → Bool) (utxos : UtxoDb) (body : Body)
    (fts : List FilledTransaction)
    (hfill : fillAll utxos body.transactions = .ok fts)
    (hfees : feesLoop [] 0 fts = .ok (totalFees fts)) :
    validate_body getAddr verify utxos body
      = if coinbaseValue body > totalFees fts then .error .NotEnoughFees
        else
          match checkAddresses getAddr body.authorizations
              ((fts.map (fun ft => ft.spent_utxos)).flatten) with
          | .error e => .error e
          | .ok _ =>
            if verify_authorizations verify body then .ok (totalFees fts)
            else .error .AuthorizationError := by
  simp only [validate_body, hfill, except_bind_ok, hfees]
  by_cases hcv : coinbaseValue body > totalFees fts
  · rw [if_pos hcv, if_pos hcv]
  · rw [if_neg hcv, if_neg hcv]
    cases hca : checkAddresses getAddr body.authorizations
        ((fts.map (fun ft => ft.spent_utxos)).flatten) with
    | error e => rw [except_bind_error]
    | ok u => cases u; rw [except_bind_ok]

/-- C5 (amended): assuming every transaction fills from the utxo set and
every filled transaction passes value validation, validate_body fails
with UtxoDoubleSpent exactly when some OutPoint occurs twice among the
inputs of the body transactions; in the absence of duplicates it fails
with NotEnoughFees exactly when the coinbase value sum exceeds the total
fees; and when furthermore the body has no more authorizations than
transaction inputs (on the complement the source authorization checker
panics and validate_body never returns) and the address check and the
signature verification succeed, it returns the total fees.  (When
several failures apply at once, the earlier check wins: a duplicate
input is reported as UtxoDoubleSpent even if the coinbase also exceeds
the fees.) -/
theorem validate_body_spec (getAddr : Nat → Address)
    (verify : Authorization → Transaction → Bool) (utxos : UtxoDb) (body : Body)
    (fts : List FilledTransaction)
    (hfill : fillAll utxos body.transactions = .ok fts)
    (hvals : ∀ ft ∈ fts, valueOut ft ≤ valueIn ft) :
    (fts.map (fun ft => ft.transaction) = body.transactions)
    ∧ (validate_body getAddr verify utxos body = .error .UtxoDoubleSpent
        ↔ ¬ (allInputs fts).Nodup)
    ∧ ((allInputs fts).Nodup →
        (validate_body getAddr verify utxos body = .error .NotEnoughFees
          ↔ totalFees fts < coinbaseValue body))
    ∧ ((allInputs fts).Nodup → coinbaseValue body ≤ totalFees fts →
        checkAddresses getAddr body.authorizations
            ((fts.map (fun ft => ft.spent_utxos)).flatten) = .ok () →
        authorizationsWithinInputs body = true →
        verify_authorizations verify body = true →
        validate_body getAddr verify utxos body = .ok (totalFees fts)) := by
  have hfees := feesLoop_spec fts hvals [] 0 List.nodup_nil
  simp only [List.nil_append] at hfees
  refine ⟨fillAll_transactions utxos body.transactions fts hfill, ?_, ?_, ?_⟩
  · by_cases hnd : (allInputs fts).Nodup
    · refine iff_of_false ?_ (fun hc => hc hnd)
      rw [validate_body_unfold getAddr verify utxos body fts hfill (hfees.1 hnd)]
      by_cases hcv : coinbaseValue body > totalFees fts
      · rw [if_pos hcv]
        intro hc
        exact absurd hc (by simp)
      · rw [if_neg hcv]
        rcases checkAddresses_cases getAddr body.authorizations
            ((fts.map (fun ft => ft.spent_utxos)).flatten) with hca | hca
        · rw [hca]
          by_cases hv : verify_authorizations verify body = true
          · simp only [hv, if_true]
            intro hc
            exact absurd hc (by simp)
          · simp only [hv, if_false]
            intro hc
            exact absurd hc (by simp)
        · rw [hca]
          intro hc
          exact absurd hc (by simp)
    · have hloop : feesLoop [] 0 fts = .error .UtxoDoubleSpent := hfees.2 hnd
      refine iff_of_true ?_ hnd
      simp only [validate_body, hfill, except_bind_ok, hloop, except_bind_error]
  · intro hnd
    rw [validate_body_unfold getAddr verify utxos body fts hfill (hfees.1 hnd)]
    by_cases hcv : coinbaseValue body > totalFees fts
    · rw [if_pos hcv]
      exact iff_of_true rfl hcv
    · rw [if_neg hcv]
      rcases checkAddresses_cases getAddr body.authorizations
          ((fts.map (fun ft => ft.spent_utxos)).flatten) with hca | hca
      · rw [hca]
        by_cases hv : verify_authorizations verify body = true
        · simp only [hv, if_true]
          exact iff_of_false (by simp) (by omega)
        · simp only [hv, if_false]
          exact iff_of_false (by simp) (by omega)
      · rw [hca]
        exact iff_of_false (by simp) (by omega)
  · intro hnd hcv hca hwithin hv
    rw [validate_body_unfold getAddr verify utxos body fts hfill (hfees.1 hnd),
      if_neg (by omega), hca]
    simp only [hv, if_true]

/-- C5 counterexample: a body with both a duplicate input and a coinbase
value (5) exceeding the total fees (0); the claim says such a body fails
with NotEnoughFees, but validate_body reports UtxoDoubleSpent — the
duplicate check runs first. -/
theorem validate_body_error_priority_counterexample :
    validate_body (fun _ => 0) (fun _ _ => true) utxosC5 bodyC5
        = .error .UtxoDoubleSpent
      ∧ fillAll utxosC5 bodyC5.transactions = .ok ftsC5
      ∧ totalFees ftsC5 = 0
      ∧ coinbaseValue bodyC5 = 5 := by
  refine ⟨by decide, by decide, by decide, by decide⟩

/-- C5 witness: the amended characterisation gives acceptance of a
concrete valid body with total fees 2. -/
theorem validate_body_spec_witness :
    validate_body getAddrW (fun _ _ => true) utxosW5 bodyW5 = .ok 2 :=
  (validate_body_spec getAddrW (fun _ _ => true) utxosW5 bodyW5 ftsW5
    (by decide) (by decide)).2.2.2 (by decide) (by decide) (by decide) (by decide)
    (by decide)

end Plain
